import Mathlib

/-!
Shallow embedding of `src/Hill_Climbing.py` (class `HillClimbingWiFiOptimizer`).

Positions are integer pairs.  Python code that can raise (e.g. `min` over an
empty sequence, `random.randint` with an empty range) is modelled with
`Option`: `none` stands for a raised exception.  The instance state
(`self.grid_size`, `self.computers`) is passed explicitly.  Randomness is
modelled by an explicit stream of draws passed to the generators.
-/

namespace HillClimbing

/-- A grid position `(x, y)`, as a Python tuple of two ints. -/
abbrev Pos : Type := Int × Int

/-- Python `manhattan_distance`: `abs(x1-x2) + abs(y1-y2)`. -/
def manhattan_distance (pos1 pos2 : Pos) : Int :=
  |pos1.1 - pos2.1| + |pos1.2 - pos2.2|

/-- Python builtin `min` over a sequence: raises (here `none`) on an empty
sequence, otherwise the minimum. -/
def seqMin : List Int → Option Int
  | [] => none
  | x :: xs => some (xs.foldl min x)


/-- Evaluate `f` across a list left to right, propagating the first raised
exception (`none`), as a Python generator consumed by `sum`/`max` does. -/
def traverse? {α β : Type} (f : α → Option β) : List α → Option (List β)
  | [] => some []
  | x :: xs =>
      match f x with
      | none => none
      | some y =>
          match traverse? f xs with
          | none => none
          | some ys => some (y :: ys)

/-- Python `calculate_objective`: the negative sum over computers of the
distance to the nearest wifi position.  `none` models the `ValueError`
raised by `min` when `wifi_positions` is empty and at least one computer
exists. -/
def calculate_objective (computers wifi_positions : List Pos) : Option Int :=
  (traverse? (fun c => seqMin (wifi_positions.map (manhattan_distance c))) computers).map
    (fun dists => -dists.sum)

/-- The fixed direction list `[(-1, 0), (1, 0), (0, -1), (0, 1)]` from
`get_neighbors`. -/
def directions : List (Int × Int) := [(-1, 0), (1, 0), (0, -1), (0, 1)]

/-- Python `get_neighbors`: for each index `i` and each direction, move wifi
`i` one step; keep the candidate when it stays on the grid and the resulting
placement has no duplicate positions (`len(set(..)) == len(..)`). -/
def get_neighbors (grid_size : Int) (wifi_positions : List Pos) : List (List Pos) :=
  wifi_positions.enum.flatMap (fun ixy =>
    directions.filterMap (fun d =>
      let new_x := ixy.2.1 + d.1
      let new_y := ixy.2.2 + d.2
      if 0 ≤ new_x ∧ new_x < grid_size ∧ 0 ≤ new_y ∧ new_y < grid_size then
        let new_wifi_positions := wifi_positions.set ixy.1 (new_x, new_y)
        if new_wifi_positions.Nodup then some new_wifi_positions else none
      else none))

/-- The dictionary returned by `hill_climbing`. -/
structure RunResult where
  wifi_positions : List Pos
  score : Int
  iterations : Nat
  improvements : Nat
  deriving Repr, DecidableEq

/-- Python `max(..., key=lambda x: x[1], default=..)` over `(neighbor, score)`
pairs: the first pair whose score is maximal (a later pair replaces the
incumbent only when strictly greater), `none` on an empty list (the caller
then uses the default). -/
def pickBest : List (List Pos × Int) → Option (List Pos × Int)
  | [] => none
  | p :: ps => some (ps.foldl (fun best q => if q.2 > best.2 then q else best) p)

/-- The `while iterations < max_iterations` loop of `hill_climbing`, with the
remaining iteration budget as fuel (the counter increments by one on every
continuing pass, so fuel `max_iterations - iterations` is exact). -/
def climb_loop (computers : List Pos) (grid_size : Int) :
    Nat → List Pos → Int → Nat → Nat → Option RunResult
  | 0, current_wifi, current_score, iterations, improvements =>
      some ⟨current_wifi, current_score, iterations, improvements⟩
  | fuel + 1, current_wifi, current_score, iterations, improvements =>
      match traverse? (fun n => (calculate_objective computers n).map (fun s => (n, s)))
          (get_neighbors grid_size current_wifi) with
      | none => none
      | some scored =>
          match pickBest scored with
          | none => some ⟨current_wifi, current_score, iterations, improvements⟩
          | some (best_neighbor, best_score) =>
              if best_score ≤ current_score then
                some ⟨current_wifi, current_score, iterations, improvements⟩
              else
                climb_loop computers grid_size fuel best_neighbor best_score
                  (iterations + 1) (improvements + 1)

/-- Python `hill_climbing`: evaluate the initial placement (which can raise),
then run the ascent loop. -/
def hill_climbing (computers : List Pos) (grid_size : Int)
    (initial_wifi : List Pos) (max_iterations : Nat) : Option RunResult :=
  match calculate_objective computers initial_wifi with
  | none => none
  | some current_score =>
      climb_loop computers grid_size max_iterations initial_wifi current_score 0 0

/-- The sequence of scores of the successively adopted placements in one
`hill_climbing` run (starting score included), mirroring `climb_loop` branch
for branch: a ghost observer used to state the monotonicity invariant. -/
def climb_trace (computers : List Pos) (grid_size : Int) :
    Nat → List Pos → Int → List Int
  | 0, _, current_score => [current_score]
  | fuel + 1, current_wifi, current_score =>
      match traverse? (fun n => (calculate_objective computers n).map (fun s => (n, s)))
          (get_neighbors grid_size current_wifi) with
      | none => [current_score]
      | some scored =>
          match pickBest scored with
          | none => [current_score]
          | some (best_neighbor, best_score) =>
              if best_score ≤ current_score then [current_score]
              else current_score :: climb_trace computers grid_size fuel best_neighbor best_score

/-- Python `random.randint(lo, hi)`: raises (`none`) when the range is empty
(`hi < lo`), otherwise a value in `[lo, hi]`; the draw `r` selects which. -/
def randint (lo hi : Int) (r : Nat) : Option Int :=
  if hi < lo then none else some (lo + (r : Int) % (hi - lo + 1))

/-- Python `generate_random_wifi`: `num_wifi` independent draws of a random
in-grid position, deduplicated by the set comprehension (`range` of a
non-positive count is empty).  The stream `s` supplies the successive
`randint` draws; the set-to-list iteration order is modelled by
`List.dedup`. -/
def generate_random_wifi (s : Nat → Nat) (grid_size : Int) (num_wifi : Int) :
    Option (List Pos) :=
  (traverse? (fun i => do
      let x ← randint 0 (grid_size - 1) (s (2 * i))
      let y ← randint 0 (grid_size - 1) (s (2 * i + 1))
      pure ((x, y) : Pos)) (List.range num_wifi.toNat)).map List.dedup

/-- Python `generate_random_computers`: identical draw-and-dedup shape with
`num_computers` draws, run once at construction time. -/
def generate_random_computers (s : Nat → Nat) (grid_size : Int) (num_computers : Int) :
    Option (List Pos) :=
  (traverse? (fun i => do
      let x ← randint 0 (grid_size - 1) (s (2 * i))
      let y ← randint 0 (grid_size - 1) (s (2 * i + 1))
      pure ((x, y) : Pos)) (List.range num_computers.toNat)).map List.dedup

/-- The mutable locals of `hill_climbing_with_random_restart` across the
restart loop (`best_score = none` models the initial `float(-inf)`). -/
structure RestartState where
  best_solution : Option (List Pos)
  best_score : Option Int
  best_restart_num : Nat
  all_results : List RunResult
  total_improvements : Nat
  deriving Repr, DecidableEq

/-- The comparison `result[score] > best_score` where `best_score` starts at
`float(-inf)`: any finite score beats `-inf`. -/
def beatsBest (best : Option Int) (score : Int) : Bool :=
  match best with
  | none => true
  | some b => b < score

/-- The body of one restart iteration: append the run result, accumulate the
improvement total, and replace the incumbent best on a strictly greater
score, recording the 1-based restart number. -/
def restart_step (st : RestartState) (restart : Nat) (r : RunResult) : RestartState :=
  let st' : RestartState :=
    { st with
      all_results := st.all_results ++ [r]
      total_improvements := st.total_improvements + r.improvements }
  if beatsBest st.best_score r.score then
    { st' with
      best_score := some r.score
      best_solution := some r.wifi_positions
      best_restart_num := restart + 1 }
  else st'

/-- The `for restart in range(num_restarts)` loop: generate a fresh random
start, climb, fold the result into the state; `none` propagates an
exception raised inside any restart. -/
def restart_loop (computers : List Pos) (grid_size : Int) (gen : Nat → List Pos)
    (max_iterations : Nat) : Nat → Nat → RestartState → Option RestartState
  | 0, _, st => some st
  | k + 1, restart, st =>
      match hill_climbing computers grid_size (gen restart) max_iterations with
      | none => none
      | some r =>
          restart_loop computers grid_size gen max_iterations k (restart + 1)
            (restart_step st restart r)

/-- The dictionary returned by `hill_climbing_with_random_restart` (the parts
consumed by callers; elapsed wall-clock time is not modelled). -/
structure RestartResult where
  best_wifi_positions : Option (List Pos)
  best_score : Option Int
  best_restart_num : Nat
  all_results : List RunResult
  worst_score : Int
  unique_solutions : Nat
  total_improvements : Nat
  improvement_rate : ℚ
  deriving Repr, DecidableEq

/-- Python `hill_climbing_with_random_restart`: run `num_restarts` climbs from
the starting placements `gen 0, gen 1, ...` (the random generation, modelled
by `gen`), then build the statistics.  `min(scores)` raises (`none`) when the
scores list is empty, i.e. when `num_restarts ≤ 0`; this happens before
`improvement_rate` would divide by zero. -/
def hill_climbing_with_random_restart (computers : List Pos) (grid_size : Int)
    (gen : Nat → List Pos) (num_restarts : Int) (max_iterations : Nat) :
    Option RestartResult :=
  match restart_loop computers grid_size gen max_iterations num_restarts.toNat 0
      ⟨none, none, 0, [], 0⟩ with
  | none => none
  | some st =>
      let scores := st.all_results.map (fun r => r.score)
      match seqMin scores with
      | none => none
      | some worst =>
          some
            { best_wifi_positions := st.best_solution
              best_score := st.best_score
              best_restart_num := st.best_restart_num
              all_results := st.all_results
              worst_score := worst
              unique_solutions := scores.dedup.length
              total_improvements := st.total_improvements
              improvement_rate := (st.total_improvements : ℚ) / (num_restarts : ℚ) }

/-- A position lies on the `grid_size × grid_size` grid. -/
def inGrid (grid_size : Int) (p : Pos) : Prop :=
  0 ≤ p.1 ∧ p.1 < grid_size ∧ 0 ≤ p.2 ∧ p.2 < grid_size

instance (grid_size : Int) (p : Pos) : Decidable (inGrid grid_size p) := by
  unfold inGrid; infer_instance

lemma seqMin_eq_none {l : List Int} : seqMin l = none ↔ l = [] := by
  cases l <;> simp [seqMin]

lemma traverse?_some_of_forall {α β : Type} (f : α → Option β) :
    ∀ l : List α, (∀ x ∈ l, ∃ y, f x = some y) → ∃ l2, traverse? f l = some l2 := by
  intro l
  induction l with
  | nil => exact fun _ => ⟨[], rfl⟩
  | cons x xs ih =>
    intro h
    obtain ⟨y, hy⟩ := h x (by simp)
    obtain ⟨l2, hl2⟩ := ih (fun a ha => h a (by simp [ha]))
    exact ⟨y :: l2, by simp [traverse?, hy, hl2]⟩

lemma traverse?_mem {α β : Type} (f : α → Option β) :
    ∀ l l2, traverse? f l = some l2 → ∀ y ∈ l2, ∃ x ∈ l, f x = some y := by
  intro l
  induction l with
  | nil =>
    intro l2 h y hy
    simp only [traverse?, Option.some.injEq] at h
    subst h; simp at hy
  | cons x xs ih =>
    intro l2 h y hy
    simp only [traverse?] at h
    cases hx : f x with
    | none => rw [hx] at h; exact Option.noConfusion h
    | some a =>
      rw [hx] at h
      cases hxs : traverse? f xs with
      | none => rw [hxs] at h; exact Option.noConfusion h
      | some l3 =>
        rw [hxs] at h
        simp only [Option.some.injEq] at h
        subst h
        rcases List.mem_cons.mp hy with rfl | hmem
        · exact ⟨x, by simp, hx⟩
        · obtain ⟨b, hb, hfb⟩ := ih l3 hxs y hmem
          exact ⟨b, by simp [hb], hfb⟩

lemma calculate_objective_some (computers wifi : List Pos)
    (h : computers = [] ∨ wifi ≠ []) :
    ∃ s, calculate_objective computers wifi = some s := by
  have : ∃ l2, traverse?
      (fun c => seqMin (wifi.map (manhattan_distance c))) computers = some l2 := by
    apply traverse?_some_of_forall
    intro c _
    rcases h with h | h
    · subst h; simp_all
    · cases wifi with
      | nil => exact absurd rfl h
      | cons w ws => exact ⟨_, rfl⟩
  obtain ⟨l2, hl2⟩ := this
  exact ⟨-l2.sum, by simp [calculate_objective, hl2]⟩

lemma calculate_objective_empty_none (computers : List Pos) (h : computers ≠ []) :
    calculate_objective computers [] = none := by
  cases computers with
  | nil => exact absurd rfl h
  | cons c cs => simp [calculate_objective, traverse?, seqMin]

lemma calculate_objective_nonempty_shape (computers wifi : List Pos) (s : Int)
    (h : calculate_objective computers wifi = some s) :
    computers = [] ∨ wifi ≠ [] := by
  by_contra hcon
  push_neg at hcon
  rw [hcon.2, calculate_objective_empty_none computers hcon.1] at h
  exact Option.noConfusion h

lemma pickBest_foldl_mem (p : List Pos × Int) :
    ∀ ps : List (List Pos × Int),
      ps.foldl (fun best q => if q.2 > best.2 then q else best) p ∈ p :: ps := by
  intro ps
  induction ps generalizing p with
  | nil => simp
  | cons q qs ih =>
    simp only [List.foldl_cons]
    rcases List.mem_cons.mp (ih (if q.2 > p.2 then q else p)) with h | h
    · rw [h]
      by_cases hq : q.2 > p.2 <;> simp [hq]
    · simp [h]

lemma pickBest_mem {l : List (List Pos × Int)} {p : List Pos × Int}
    (h : pickBest l = some p) : p ∈ l := by
  cases l with
  | nil => exact Option.noConfusion h
  | cons a as =>
    simp only [pickBest, Option.some.injEq] at h
    rw [← h]
    exact pickBest_foldl_mem a as

lemma mem_get_neighbors {grid_size : Int} {w n : List Pos}
    (h : n ∈ get_neighbors grid_size w) :
    ∃ i p, i < w.length ∧ inGrid grid_size p ∧ n = w.set i p ∧ n.Nodup := by
  simp only [get_neighbors, List.mem_flatMap, List.mem_filterMap] at h
  obtain ⟨ixy, hixy, d, _, hres⟩ := h
  set p : Pos := (ixy.2.1 + d.1, ixy.2.2 + d.2) with hp
  by_cases hb : 0 ≤ p.1 ∧ p.1 < grid_size ∧ 0 ≤ p.2 ∧ p.2 < grid_size
  · rw [if_pos hb] at hres
    by_cases hnd : (w.set ixy.1 p).Nodup
    · rw [if_pos hnd] at hres
      have hn := Option.some.inj hres
      subst hn
      have hlen : ixy.1 < w.length := by
        have := List.mk_mem_enum_iff_getElem? (l := w) (i := ixy.1) (x := ixy.2)
        have h2 : w[ixy.1]? = some ixy.2 := this.mp (by
          cases ixy with
          | mk a b => exact hixy)
        exact (List.getElem?_eq_some.mp h2).1
      exact ⟨ixy.1, p, hlen, hb, rfl, hnd⟩
    · rw [if_neg hnd] at hres
      exact Option.noConfusion hres
  · rw [if_neg hb] at hres
    exact Option.noConfusion hres

lemma get_neighbors_length {grid_size : Int} {w n : List Pos}
    (h : n ∈ get_neighbors grid_size w) : n.length = w.length := by
  obtain ⟨i, p, _, _, rfl, _⟩ := mem_get_neighbors h
  simp

lemma get_neighbors_ne_nil {grid_size : Int} {w n : List Pos}
    (h : n ∈ get_neighbors grid_size w) : n ≠ [] := by
  obtain ⟨i, p, hi, _, rfl, _⟩ := mem_get_neighbors h
  intro hnil
  have hlen : (w.set i p).length = w.length := by simp
  rw [hnil] at hlen
  simp at hlen
  omega

lemma pickBest_foldl_le (p : List Pos × Int) :
    ∀ ps : List (List Pos × Int), ∀ q ∈ p :: ps,
      q.2 ≤ (ps.foldl (fun best r => if r.2 > best.2 then r else best) p).2 := by
  intro ps
  induction ps generalizing p with
  | nil => simp
  | cons r rs ih =>
    intro q hq
    simp only [List.foldl_cons]
    rcases List.mem_cons.mp hq with rfl | hq
    · have h1 : q.2 ≤ (if r.2 > q.2 then r else q).2 := by
        by_cases h : r.2 > q.2 <;> simp [h]
        omega
      exact le_trans h1 (ih _ _ (by simp))
    · rcases List.mem_cons.mp hq with rfl | hq
      · have h1 : q.2 ≤ (if q.2 > p.2 then q else p).2 := by
          by_cases h : q.2 > p.2 <;> simp [h]
          omega
        exact le_trans h1 (ih _ _ (by simp))
      · exact ih _ _ (by simp [hq])

lemma pickBest_le {l : List (List Pos × Int)} {p : List Pos × Int}
    (h : pickBest l = some p) : ∀ q ∈ l, q.2 ≤ p.2 := by
  cases l with
  | nil => exact Option.noConfusion h
  | cons a as =>
    simp only [pickBest, Option.some.injEq] at h
    rw [← h]
    exact fun q hq => pickBest_foldl_le a as q hq

lemma pickBest_foldl_split (p : List Pos × Int) :
    ∀ ps : List (List Pos × Int),
      ∃ l1 l2, p :: ps = l1 ++ (ps.foldl (fun best r => if r.2 > best.2 then r else best) p) :: l2
        ∧ ∀ q ∈ l1, q.2 < (ps.foldl (fun best r => if r.2 > best.2 then r else best) p).2 := by
  intro ps
  induction ps generalizing p with
  | nil => exact ⟨[], [], rfl, by simp⟩
  | cons r rs ih =>
    simp only [List.foldl_cons]
    by_cases hr : r.2 > p.2
    · rw [if_pos hr]
      obtain ⟨l1, l2, heq, hlt⟩ := ih r
      have hrle := pickBest_foldl_le r rs r (by simp)
      refine ⟨p :: l1, l2, by rw [List.cons_append, ← heq], ?_⟩
      intro q hq
      rcases List.mem_cons.mp hq with rfl | hq
      · omega
      · exact hlt q hq
    · rw [if_neg hr]
      obtain ⟨l1, l2, heq, hlt⟩ := ih p
      cases l1 with
      | nil =>
        simp only [List.nil_append, List.cons.injEq] at heq
        refine ⟨[], r :: rs, ?_, by simp⟩
        rw [List.nil_append, ← heq.1]
      | cons a l1t =>
        simp only [List.cons_append, List.cons.injEq] at heq
        obtain ⟨rfl, htail⟩ := heq
        refine ⟨p :: r :: l1t, l2, by rw [List.cons_append, List.cons_append, ← htail], ?_⟩
        intro q hq
        have hp := hlt p (by simp)
        rcases List.mem_cons.mp hq with rfl | hq
        · exact hp
        · rcases List.mem_cons.mp hq with rfl | hq
          · omega
          · exact hlt q (by simp [hq])

lemma pickBest_split {l : List (List Pos × Int)} {p : List Pos × Int}
    (h : pickBest l = some p) :
    ∃ l1 l2, l = l1 ++ p :: l2 ∧ ∀ q ∈ l1, q.2 < p.2 := by
  cases l with
  | nil => exact Option.noConfusion h
  | cons a as =>
    simp only [pickBest, Option.some.injEq] at h
    rw [← h]
    exact pickBest_foldl_split a as

lemma scored_traverse_some (computers : List Pos) (grid_size : Int) (w : List Pos) :
    ∃ scored, traverse?
        (fun n => (calculate_objective computers n).map (fun sc => (n, sc)))
        (get_neighbors grid_size w) = some scored := by
  apply traverse?_some_of_forall
  intro n hn
  obtain ⟨sc, hsc⟩ := calculate_objective_some computers n (Or.inr (get_neighbors_ne_nil hn))
  exact ⟨(n, sc), by rw [hsc]; rfl⟩

lemma climb_loop_spec (computers : List Pos) (grid_size : Int) :
    ∀ fuel current_wifi current_score iterations improvements,
      calculate_objective computers current_wifi = some current_score →
      ∃ r, climb_loop computers grid_size fuel current_wifi current_score
              iterations improvements = some r ∧
        calculate_objective computers r.wifi_positions = some r.score ∧
        r.iterations + improvements = r.improvements + iterations ∧
        iterations ≤ r.iterations ∧
        r.iterations ≤ iterations + fuel ∧
        current_score ≤ r.score := by
  intro fuel
  induction fuel with
  | zero =>
    intro w s it im h
    exact ⟨⟨w, s, it, im⟩, rfl, h, Nat.add_comm it im, le_refl _, Nat.le_add_right it 0, le_refl _⟩
  | succ f ih =>
    intro w s it im h
    obtain ⟨scored, hsc⟩ := scored_traverse_some computers grid_size w
    cases hpb : pickBest scored with
    | none =>
      refine ⟨⟨w, s, it, im⟩, ?_, h, Nat.add_comm it im, le_refl _, Nat.le_add_right it (f + 1),
        le_refl _⟩
      simp only [climb_loop, hsc, hpb]
    | some p =>
      obtain ⟨bn, bs⟩ := p
      have hmem := pickBest_mem hpb
      obtain ⟨n, _, hfn⟩ := traverse?_mem _ _ _ hsc _ hmem
      have hobj : calculate_objective computers bn = some bs := by
        cases ho : calculate_objective computers n with
        | none => rw [ho] at hfn; exact Option.noConfusion hfn
        | some sc =>
          rw [ho] at hfn
          rw [Option.map_some'] at hfn
          simp only [Option.some.injEq, Prod.mk.injEq] at hfn
          obtain ⟨rfl, rfl⟩ := hfn
          exact ho
      by_cases hle : bs ≤ s
      · refine ⟨⟨w, s, it, im⟩, ?_, h, Nat.add_comm it im, le_refl _, Nat.le_add_right it (f + 1),
          le_refl _⟩
        simp only [climb_loop, hsc, hpb, if_pos hle]
      · obtain ⟨r, hr, hro, hcount, hit1, hit2, hsle⟩ := ih bn bs (it + 1) (im + 1) hobj
        refine ⟨r, ?_, hro, by omega, by omega, by omega, by omega⟩
        simp only [climb_loop, hsc, hpb, if_neg hle]
        exact hr

lemma climb_trace_head (computers : List Pos) (grid_size : Int) :
    ∀ fuel w s, (climb_trace computers grid_size fuel w s).head? = some s := by
  intro fuel w s
  cases fuel with
  | zero => rfl
  | succ f =>
    cases htr : traverse? (fun n => (calculate_objective computers n).map (fun sc => (n, sc)))
        (get_neighbors grid_size w) with
    | none => simp [climb_trace, htr]
    | some scored =>
      cases hpb : pickBest scored with
      | none => simp [climb_trace, htr, hpb]
      | some p =>
        by_cases hle : p.2 ≤ s
        · simp [climb_trace, htr, hpb, hle]
        · simp [climb_trace, htr, hpb, hle]

lemma climb_trace_ne_nil (computers : List Pos) (grid_size : Int)
    (fuel : Nat) (w : List Pos) (s : Int) :
    climb_trace computers grid_size fuel w s ≠ [] := by
  intro hnil
  have := climb_trace_head computers grid_size fuel w s
  rw [hnil] at this
  exact Option.noConfusion this

lemma climb_trace_chain (computers : List Pos) (grid_size : Int) :
    ∀ fuel w s, List.Chain' (· < ·) (climb_trace computers grid_size fuel w s) := by
  intro fuel
  induction fuel with
  | zero => intro w s; simp [climb_trace]
  | succ f ih =>
    intro w s
    cases htr : traverse? (fun n => (calculate_objective computers n).map (fun sc => (n, sc)))
        (get_neighbors grid_size w) with
    | none => simp [climb_trace, htr]
    | some scored =>
      cases hpb : pickBest scored with
      | none => simp [climb_trace, htr, hpb]
      | some p =>
        obtain ⟨bn, bs⟩ := p
        by_cases hle : bs ≤ s
        · simp [climb_trace, htr, hpb, hle]
        · have hgoal : climb_trace computers grid_size (f + 1) w s
              = s :: climb_trace computers grid_size f bn bs := by
            simp [climb_trace, htr, hpb, hle]
          rw [hgoal, List.chain'_cons']
          refine ⟨?_, ih bn bs⟩
          intro b hb
          rw [climb_trace_head computers grid_size f bn bs] at hb
          obtain rfl := Option.some.inj hb
          omega

lemma climb_loop_succ_none (computers : List Pos) (grid_size : Int)
    (f : Nat) (w : List Pos) (s : Int) (it im : Nat) {scored : List (List Pos × Int)}
    (htr : traverse? (fun n => (calculate_objective computers n).map (fun sc => (n, sc)))
        (get_neighbors grid_size w) = some scored)
    (hpb : pickBest scored = none) :
    climb_loop computers grid_size (f + 1) w s it im = some ⟨w, s, it, im⟩ := by
  simp [climb_loop, htr, hpb]

lemma climb_loop_succ_stop (computers : List Pos) (grid_size : Int)
    (f : Nat) (w : List Pos) (s : Int) (it im : Nat) {scored : List (List Pos × Int)}
    {bn : List Pos} {bs : Int}
    (htr : traverse? (fun n => (calculate_objective computers n).map (fun sc => (n, sc)))
        (get_neighbors grid_size w) = some scored)
    (hpb : pickBest scored = some (bn, bs)) (hle : bs ≤ s) :
    climb_loop computers grid_size (f + 1) w s it im = some ⟨w, s, it, im⟩ := by
  simp [climb_loop, htr, hpb, hle]

lemma climb_loop_succ_adopt (computers : List Pos) (grid_size : Int)
    (f : Nat) (w : List Pos) (s : Int) (it im : Nat) {scored : List (List Pos × Int)}
    {bn : List Pos} {bs : Int}
    (htr : traverse? (fun n => (calculate_objective computers n).map (fun sc => (n, sc)))
        (get_neighbors grid_size w) = some scored)
    (hpb : pickBest scored = some (bn, bs)) (hle : ¬bs ≤ s) :
    climb_loop computers grid_size (f + 1) w s it im
      = climb_loop computers grid_size f bn bs (it + 1) (im + 1) := by
  simp [climb_loop, htr, hpb, hle]

lemma climb_trace_last (computers : List Pos) (grid_size : Int) :
    ∀ fuel w s it im r,
      climb_loop computers grid_size fuel w s it im = some r →
      (climb_trace computers grid_size fuel w s).getLast? = some r.score := by
  intro fuel
  induction fuel with
  | zero =>
    intro w s it im r h
    obtain rfl := Option.some.inj h
    rfl
  | succ f ih =>
    intro w s it im r h
    cases htr : traverse? (fun n => (calculate_objective computers n).map (fun sc => (n, sc)))
        (get_neighbors grid_size w) with
    | none =>
      have heq : climb_loop computers grid_size (f + 1) w s it im = none := by
        simp [climb_loop, htr]
      rw [heq] at h
      exact Option.noConfusion h
    | some scored =>
      cases hpb : pickBest scored with
      | none =>
        rw [climb_loop_succ_none computers grid_size f w s it im htr hpb] at h
        obtain rfl := Option.some.inj h
        simp [climb_trace, htr, hpb]
      | some p =>
        obtain ⟨bn, bs⟩ := p
        by_cases hle : bs ≤ s
        · rw [climb_loop_succ_stop computers grid_size f w s it im htr hpb hle] at h
          obtain rfl := Option.some.inj h
          simp [climb_trace, htr, hpb, hle]
        · rw [climb_loop_succ_adopt computers grid_size f w s it im htr hpb hle] at h
          have hgoal : climb_trace computers grid_size (f + 1) w s
              = s :: climb_trace computers grid_size f bn bs := by
            simp [climb_trace, htr, hpb, hle]
          rw [hgoal]
          have htail := ih bn bs (it + 1) (im + 1) r h
          cases htc : climb_trace computers grid_size f bn bs with
          | nil => exact absurd htc (climb_trace_ne_nil computers grid_size f bn bs)
          | cons b bt =>
            rw [htc] at htail
            rw [List.getLast?_cons_cons]
            exact htail

/-- C4: within one Hill Climber run, the sequence of Scores of the
successively adopted Placements, from the initial Placement through each
improving step until termination, is strictly increasing (a neighbor is
adopted only on a strictly greater Score); the final entry of that sequence
is the Score returned by the run. -/
theorem climb_scores_strictly_increasing (computers : List Pos) (grid_size : Int)
    (fuel : Nat) (w : List Pos) (s : Int) :
    List.Chain' (· < ·) (climb_trace computers grid_size fuel w s) ∧
    ∀ it im r, climb_loop computers grid_size fuel w s it im = some r →
      (climb_trace computers grid_size fuel w s).getLast? = some r.score :=
  ⟨climb_trace_chain computers grid_size fuel w s,
   fun it im r h => climb_trace_last computers grid_size fuel w s it im r h⟩

/-- Witness for C4 at the worked 3×3 example: the adopted-score sequence from
the start `[(2,2)]` is `[-6, -4, -2]`, strictly increasing and ending at the
returned score `-2`. -/
theorem climb_scores_strictly_increasing_witness :
    climb_trace [(0, 0), (0, 2)] 3 5 [(2, 2)] (-6) = [-6, -4, -2] ∧
    List.Chain' (· < ·) (climb_trace [(0, 0), (0, 2)] 3 5 [(2, 2)] (-6)) ∧
    (climb_trace [(0, 0), (0, 2)] 3 5 [(2, 2)] (-6)).getLast? = some (-2) :=
  ⟨by decide,
   (climb_scores_strictly_increasing [(0, 0), (0, 2)] 3 5 [(2, 2)] (-6)).1,
   (climb_scores_strictly_increasing [(0, 0), (0, 2)] 3 5 [(2, 2)] (-6)).2 0 0
     ⟨[(0, 2)], -2, 2, 2⟩ (by decide)⟩

lemma hill_climbing_spec {computers : List Pos} {grid_size : Int} {init : List Pos}
    {m : Nat} {r : RunResult} (h : hill_climbing computers grid_size init m = some r) :
    calculate_objective computers r.wifi_positions = some r.score ∧
    r.iterations = r.improvements ∧ r.iterations ≤ m := by
  cases ho : calculate_objective computers init with
  | none =>
    have hnone : hill_climbing computers grid_size init m = none := by
      simp [hill_climbing, ho]
    rw [hnone] at h
    exact Option.noConfusion h
  | some s =>
    have huf : hill_climbing computers grid_size init m
        = climb_loop computers grid_size m init s 0 0 := by
      simp [hill_climbing, ho]
    rw [huf] at h
    obtain ⟨r', hr', hobj, hcount, _, hcap, _⟩ :=
      climb_loop_spec computers grid_size m init s 0 0 ho
    obtain rfl := Option.some.inj (hr'.symm.trans h)
    exact ⟨hobj, by omega, by omega⟩

lemma climb_loop_stable_example :
    ∀ k, climb_loop [(0, 0), (0, 2)] 3 k [(0, 2)] (-2) 2 2
      = some ⟨[(0, 2)], -2, 2, 2⟩ := by
  intro k
  cases k with
  | zero => rfl
  | succ k2 => rfl

/-- C1: for clients `{(0,0), (0,2)}` on a 3×3 grid, hill climbing from the
single starting placement `[(2,2)]` with any step cap of at least 2 returns
exactly placement `[(0,2)]`, score `-2`, 2 steps taken, 2 improvements. -/
theorem worked_example_run (m : Nat) (h : 2 ≤ m) :
    hill_climbing [(0, 0), (0, 2)] 3 [(2, 2)] m = some ⟨[(0, 2)], -2, 2, 2⟩ := by
  obtain ⟨k, rfl⟩ : ∃ k, m = k + 2 := ⟨m - 2, by omega⟩
  have h1 : hill_climbing [(0, 0), (0, 2)] 3 [(2, 2)] (k + 2)
      = climb_loop [(0, 0), (0, 2)] 3 k [(0, 2)] (-2) 2 2 := rfl
  rw [h1]
  exact climb_loop_stable_example k

/-- Witness for C1 at the smallest allowed cap `m = 2`. -/
theorem worked_example_run_witness :
    2 ≤ 2 ∧ hill_climbing [(0, 0), (0, 2)] 3 [(2, 2)] 2 = some ⟨[(0, 2)], -2, 2, 2⟩ :=
  ⟨by decide, worked_example_run 2 (by decide)⟩

/-- Counterexample to C2 as stated: on the empty starting Placement with a
non-empty client set, `hill_climbing` raises (Python `ValueError` from `min`
over an empty sequence, modelled as `none`) instead of returning a Run
Result. -/
theorem hill_climbing_empty_raises :
    hill_climbing [(0, 0)] 3 [] 500 = none := rfl

/-- C2 (amended): `hill_climbing` returns a Run Result for every starting
Placement that is non-empty, and also for every starting Placement when the
client set is empty; only the combination empty Placement with non-empty
client set raises. -/
theorem hill_climbing_total_of_nonempty (computers : List Pos) (grid_size : Int)
    (init : List Pos) (m : Nat) (h : computers = [] ∨ init ≠ []) :
    ∃ r, hill_climbing computers grid_size init m = some r := by
  obtain ⟨s, hs⟩ := calculate_objective_some computers init h
  have huf : hill_climbing computers grid_size init m
      = climb_loop computers grid_size m init s 0 0 := by
    simp [hill_climbing, hs]
  obtain ⟨r, hr, _⟩ := climb_loop_spec computers grid_size m init s 0 0 hs
  exact ⟨r, huf.trans hr⟩

/-- Witness for C2 (amended) on a single-cell grid: the run terminates
immediately with zero steps and zero improvements. -/
theorem hill_climbing_total_of_nonempty_witness :
    ((([(0, 0)] : List Pos) = [] ∨ ([(0, 0)] : List Pos) ≠ []) ∧
      ∃ r, hill_climbing [(0, 0)] 1 [(0, 0)] 500 = some r) :=
  ⟨Or.inr (by decide),
   hill_climbing_total_of_nonempty [(0, 0)] 1 [(0, 0)] 500 (Or.inr (by decide))⟩

/-- C6: in every Run Result `hill_climbing` returns, the step counter equals
the improvement counter — both are incremented together on every adopted
improving move and the terminal non-improving evaluation is counted by
neither. -/
theorem steps_eq_improvements (computers : List Pos) (grid_size : Int)
    (init : List Pos) (m : Nat) (r : RunResult)
    (h : hill_climbing computers grid_size init m = some r) :
    r.iterations = r.improvements :=
  (hill_climbing_spec h).2.1

/-- Witness for C6 on the worked 3×3 example. -/
theorem steps_eq_improvements_witness :
    hill_climbing [(0, 0), (0, 2)] 3 [(2, 2)] 500 = some ⟨[(0, 2)], -2, 2, 2⟩ ∧
    (2 : Nat) = 2 :=
  ⟨by decide,
   steps_eq_improvements [(0, 0), (0, 2)] 3 [(2, 2)] 500 ⟨[(0, 2)], -2, 2, 2⟩ (by decide)⟩

/-- C9: for every starting Placement, client set and step cap, a run of
`hill_climbing` terminates, and when it returns a Run Result its
`stepsTaken` is at most the cap (when it instead raises — `none` — it has
also terminated, with the exception). -/
theorem climb_terminates_within_cap (computers : List Pos) (grid_size : Int)
    (init : List Pos) (m : Nat) (r : RunResult)
    (h : hill_climbing computers grid_size init m = some r) :
    r.iterations ≤ m :=
  (hill_climbing_spec h).2.2

/-- Witness for C9 on the worked 3×3 example with cap 2. -/
theorem climb_terminates_within_cap_witness :
    hill_climbing [(0, 0), (0, 2)] 3 [(2, 2)] 2 = some ⟨[(0, 2)], -2, 2, 2⟩ ∧
    (2 : Nat) ≤ 2 :=
  ⟨by decide,
   climb_terminates_within_cap [(0, 0), (0, 2)] 3 [(2, 2)] 2 ⟨[(0, 2)], -2, 2, 2⟩ (by decide)⟩

/-- C10: in every Run Result `hill_climbing` returns, the `score` field is
exactly the Objective Function evaluated at the returned placement with the
fixed client set — never stale relative to the returned placement. -/
theorem score_matches_placement (computers : List Pos) (grid_size : Int)
    (init : List Pos) (m : Nat) (r : RunResult)
    (h : hill_climbing computers grid_size init m = some r) :
    calculate_objective computers r.wifi_positions = some r.score :=
  (hill_climbing_spec h).1

/-- Witness for C10 on the worked 3×3 example. -/
theorem score_matches_placement_witness :
    hill_climbing [(0, 0), (0, 2)] 3 [(2, 2)] 500 = some ⟨[(0, 2)], -2, 2, 2⟩ ∧
    calculate_objective [(0, 0), (0, 2)] [(0, 2)] = some (-2) :=
  ⟨by decide,
   score_matches_placement [(0, 0), (0, 2)] 3 [(2, 2)] 500 ⟨[(0, 2)], -2, 2, 2⟩ (by decide)⟩

/-- C5: when several neighbors are tied for the maximum Score, the step
adopts the neighbor appearing first in the Neighbor Generator's enumeration
order: the selected pair `(bn, bs)` bounds every scored neighbor, and every
scored neighbor strictly before it scores strictly less, so each step is a
deterministic function of the current Placement and client set. -/
theorem tie_break_first_in_order (computers : List Pos) (grid_size : Int)
    (f : Nat) (w : List Pos) (s : Int) (it im : Nat)
    (scored : List (List Pos × Int)) (bn : List Pos) (bs : Int)
    (htr : traverse? (fun n => (calculate_objective computers n).map (fun sc => (n, sc)))
        (get_neighbors grid_size w) = some scored)
    (hpb : pickBest scored = some (bn, bs))
    (hgt : ¬bs ≤ s) :
    climb_loop computers grid_size (f + 1) w s it im
      = climb_loop computers grid_size f bn bs (it + 1) (im + 1) ∧
    (∀ q ∈ scored, q.2 ≤ bs) ∧
    ∃ l1 l2, scored = l1 ++ (bn, bs) :: l2 ∧ ∀ q ∈ l1, q.2 < bs :=
  ⟨climb_loop_succ_adopt computers grid_size f w s it im htr hpb hgt,
   pickBest_le hpb, pickBest_split hpb⟩

/-- Witness for C5 with a genuine tie: client `(0,0)`, placement `[(1,1)]` on
a 3×3 grid; neighbors `(0,1)` and `(1,0)` both score `-1`, and the first in
enumeration order, `(0,1)`, is adopted. -/
theorem tie_break_first_in_order_witness :
    (climb_loop [((0 : Int), (0 : Int))] 3 1 [(1, 1)] (-2) 0 0
        = climb_loop [((0 : Int), (0 : Int))] 3 0 [(0, 1)] (-1) 1 1 ∧
      (∀ q ∈ ([([((0 : Int), (1 : Int))], -1), ([(2, 1)], -3), ([(1, 0)], -1),
          ([(1, 2)], -3)] : List (List Pos × Int)), q.2 ≤ -1) ∧
      ∃ l1 l2, ([([((0 : Int), (1 : Int))], -1), ([(2, 1)], -3), ([(1, 0)], -1),
          ([(1, 2)], -3)] : List (List Pos × Int)) = l1 ++ ([(0, 1)], -1) :: l2 ∧
        ∀ q ∈ l1, q.2 < -1) :=
  tie_break_first_in_order [((0 : Int), (0 : Int))] 3 0 [(1, 1)] (-2) 0 0
    [([(0, 1)], -1), ([(2, 1)], -3), ([(1, 0)], -1), ([(1, 2)], -3)]
    [(0, 1)] (-1) (by decide) (by decide) (by decide)

lemma randint_mem {lo hi : Int} {r : Nat} {x : Int} (h : randint lo hi r = some x) :
    lo ≤ x ∧ x ≤ hi := by
  unfold randint at h
  by_cases hlt : hi < lo
  · rw [if_pos hlt] at h
    exact Option.noConfusion h
  · rw [if_neg hlt] at h
    obtain rfl := Option.some.inj h
    push_neg at hlt
    constructor
    · have := Int.emod_nonneg (r : Int) (by omega : hi - lo + 1 ≠ 0)
      omega
    · have := Int.emod_lt_of_pos (r : Int) (by omega : 0 < hi - lo + 1)
      omega

lemma draw_pos_inGrid {grid_size : Int} {a b : Nat} {p : Pos}
    (h : (do
        let x ← randint 0 (grid_size - 1) a
        let y ← randint 0 (grid_size - 1) b
        pure ((x, y) : Pos)) = some p) :
    inGrid grid_size p := by
  cases hx : randint 0 (grid_size - 1) a with
  | none => rw [hx] at h; exact Option.noConfusion h
  | some x =>
    rw [hx] at h
    cases hy : randint 0 (grid_size - 1) b with
    | none => rw [hy] at h; exact Option.noConfusion h
    | some y =>
      rw [hy] at h
      simp only [Option.pure_def, Option.bind_eq_bind, Option.some_bind,
        Option.some.injEq] at h
      subst h
      obtain ⟨hx1, hx2⟩ := randint_mem hx
      obtain ⟨hy1, hy2⟩ := randint_mem hy
      exact ⟨hx1, by omega, hy1, by omega⟩

/-- C7: every Placement produced by any component — the random Placement
generator (here `generate_random_wifi`), and any neighbor produced by
`get_neighbors` from an in-bounds input Placement — has every Position with
both coordinates in `[0, gridSize-1]` and contains no two equal Positions. -/
theorem placements_in_bounds_nodup (grid_size : Int) :
    (∀ (s : Nat → Nat) (num_wifi : Int) (l : List Pos),
      generate_random_wifi s grid_size num_wifi = some l →
        (∀ p ∈ l, inGrid grid_size p) ∧ l.Nodup) ∧
    (∀ w n : List Pos, n ∈ get_neighbors grid_size w →
      (∀ p ∈ w, inGrid grid_size p) →
        (∀ p ∈ n, inGrid grid_size p) ∧ n.Nodup) := by
  constructor
  · intro s num_wifi l hgen
    unfold generate_random_wifi at hgen
    cases htr : traverse? (fun i => do
        let x ← randint 0 (grid_size - 1) (s (2 * i))
        let y ← randint 0 (grid_size - 1) (s (2 * i + 1))
        pure ((x, y) : Pos)) (List.range num_wifi.toNat) with
    | none => rw [htr] at hgen; exact Option.noConfusion hgen
    | some raw =>
      rw [htr] at hgen
      simp only [Option.map_some', Option.some.injEq] at hgen
      subst hgen
      refine ⟨?_, List.nodup_dedup raw⟩
      intro p hp
      have hpraw : p ∈ raw := (List.mem_dedup.mp hp)
      obtain ⟨i, _, hfi⟩ := traverse?_mem _ _ _ htr p hpraw
      exact draw_pos_inGrid hfi
  · intro w n hn hw
    obtain ⟨i, p, hi, hpin, rfl, hnd⟩ := mem_get_neighbors hn
    refine ⟨?_, hnd⟩
    intro q hq
    rcases List.mem_or_eq_of_mem_set hq with hqin | rfl
    · exact hw q hqin
    · exact hpin

/-- Witness for C7: a concrete random draw on a 3×3 grid and the neighbor
`[(0,1)]` of `[(1,1)]` are both in bounds and duplicate-free. -/
theorem placements_in_bounds_nodup_witness :
    ((∀ p ∈ ([((0 : Int), (0 : Int))] : List Pos), inGrid 3 p) ∧
      ([((0 : Int), (0 : Int))] : List Pos).Nodup) ∧
    ((∀ p ∈ ([((0 : Int), (1 : Int))] : List Pos), inGrid 3 p) ∧
      ([((0 : Int), (1 : Int))] : List Pos).Nodup) :=
  ⟨(placements_in_bounds_nodup 3).1 (fun _ => 0) 2 [(0, 0)] (by decide),
   (placements_in_bounds_nodup 3).2 [(1, 1)] [(0, 1)] (by decide) (by decide)⟩

/-- The best-so-far tracking invariant of the restart loop: either nothing
has been recorded yet, or the incumbent best is the first run achieving the
maximum score seen so far, with its 1-based restart number. -/
def RestartInv (st : RestartState) : Prop :=
  (st.best_score = none ∧ st.all_results = [] ∧ st.best_restart_num = 0) ∨
  (∃ b l1 l2 r, st.best_score = some b ∧ st.all_results = l1 ++ r :: l2 ∧
    r.score = b ∧ st.best_solution = some r.wifi_positions ∧
    (∀ q ∈ l1, q.score < b) ∧ (∀ q ∈ st.all_results, q.score ≤ b) ∧
    st.best_restart_num = l1.length + 1)

lemma restart_step_beats (st : RestartState) (i : Nat) (r : RunResult)
    (hb : beatsBest st.best_score r.score = true) :
    restart_step st i r =
      { best_solution := some r.wifi_positions
        best_score := some r.score
        best_restart_num := i + 1
        all_results := st.all_results ++ [r]
        total_improvements := st.total_improvements + r.improvements } := by
  simp [restart_step, hb]

lemma restart_step_keeps (st : RestartState) (i : Nat) (r : RunResult)
    (hb : beatsBest st.best_score r.score = false) :
    restart_step st i r =
      { best_solution := st.best_solution
        best_score := st.best_score
        best_restart_num := st.best_restart_num
        all_results := st.all_results ++ [r]
        total_improvements := st.total_improvements + r.improvements } := by
  simp [restart_step, hb]

lemma restart_step_inv (st : RestartState) (i : Nat) (r : RunResult)
    (hlen : st.all_results.length = i) (hinv : RestartInv st) :
    (restart_step st i r).all_results.length = i + 1 ∧ RestartInv (restart_step st i r) := by
  cases hb : beatsBest st.best_score r.score with
  | true =>
    rw [restart_step_beats st i r hb]
    refine ⟨by simp [hlen], Or.inr ⟨r.score, st.all_results, [], r, rfl, rfl, rfl, rfl, ?_, ?_, by simp [hlen]⟩⟩
    · intro q hq
      rcases hinv with ⟨hbs, hnil, _⟩ | ⟨b, l1, l2, r0, hbs, hall, hr0, _, _, hle, _⟩
      · rw [hnil] at hq
        simp at hq
      · have hqle : q.score ≤ b := hle q hq
        have hblt : b < r.score := by
          rw [hbs] at hb
          simpa [beatsBest] using hb
        omega
    · intro q hq
      rcases List.mem_append.mp hq with hq | hq
      · rcases hinv with ⟨hbs, hnil, _⟩ | ⟨b, l1, l2, r0, hbs, hall, hr0, _, _, hle, _⟩
        · rw [hnil] at hq
          simp at hq
        · have hqle : q.score ≤ b := hle q hq
          have hblt : b < r.score := by
            rw [hbs] at hb
            simpa [beatsBest] using hb
          omega
      · rw [List.mem_singleton.mp hq]
  | false =>
    rw [restart_step_keeps st i r hb]
    rcases hinv with ⟨hbs, _, _⟩ | ⟨b, l1, l2, r0, hbs, hall, hr0, hsol, hlt, hle, hnum⟩
    · rw [hbs] at hb
      simp [beatsBest] at hb
    · have hrle : r.score ≤ b := by
        rw [hbs] at hb
        simpa [beatsBest] using hb
      refine ⟨by simp [hlen], Or.inr ⟨b, l1, l2 ++ [r], r0, hbs, ?_, hr0, hsol, hlt, ?_, hnum⟩⟩
      · rw [hall]
        simp
      · intro q hq
        rcases List.mem_append.mp hq with hq | hq
        · exact hle q hq
        · rw [List.mem_singleton.mp hq]
          exact hrle

lemma restart_loop_inv (computers : List Pos) (grid_size : Int) (gen : Nat → List Pos)
    (m : Nat) :
    ∀ k i st st2, restart_loop computers grid_size gen m k i st = some st2 →
      st.all_results.length = i → RestartInv st →
      st2.all_results.length = i + k ∧ RestartInv st2 := by
  intro k
  induction k with
  | zero =>
    intro i st st2 h hlen hinv
    obtain rfl := Option.some.inj h
    exact ⟨hlen, hinv⟩
  | succ k2 ih =>
    intro i st st2 h hlen hinv
    simp only [restart_loop] at h
    cases hr : hill_climbing computers grid_size (gen i) m with
    | none =>
      rw [hr] at h
      exact Option.noConfusion h
    | some r =>
      rw [hr] at h
      obtain ⟨hlen2, hinv2⟩ := restart_step_inv st i r hlen hinv
      have := ih (i + 1) (restart_step st i r) st2 h hlen2 hinv2
      exact ⟨by omega, this.2⟩

lemma hc_rr_unfold (computers : List Pos) (grid_size : Int) (gen : Nat → List Pos)
    (n : Int) (m : Nat) (st : RestartState) (worst : Int)
    (hrl : restart_loop computers grid_size gen m n.toNat 0 ⟨none, none, 0, [], 0⟩ = some st)
    (hmin : seqMin (st.all_results.map (fun r => r.score)) = some worst) :
    hill_climbing_with_random_restart computers grid_size gen n m = some
      { best_wifi_positions := st.best_solution
        best_score := st.best_score
        best_restart_num := st.best_restart_num
        all_results := st.all_results
        worst_score := worst
        unique_solutions := (st.all_results.map (fun r => r.score)).dedup.length
        total_improvements := st.total_improvements
        improvement_rate := (st.total_improvements : ℚ) / (n : ℚ) } := by
  simp [hill_climbing_with_random_restart, hrl, hmin]

/-- C8: whenever `hill_climbing_with_random_restart` returns a Restart
Result, its `best_score` is attained by one of the recorded runs and bounds
them all (so it is the maximum over the restarts performed), every run
strictly before the incumbent scores strictly less (ties do not replace the
incumbent), `best_restart_num` is that first maximising run's 1-based index,
and exactly `restartCount` runs were recorded. -/
theorem restart_best_is_max (computers : List Pos) (grid_size : Int)
    (gen : Nat → List Pos) (n : Int) (m : Nat) (res : RestartResult)
    (h : hill_climbing_with_random_restart computers grid_size gen n m = some res) :
    ∃ b l1 l2 r, res.best_score = some b ∧
      res.all_results = l1 ++ r :: l2 ∧ r.score = b ∧
      (∀ q ∈ l1, q.score < b) ∧
      (∀ q ∈ res.all_results, q.score ≤ b) ∧
      res.best_restart_num = l1.length + 1 ∧
      res.all_results.length = n.toNat := by
  cases hrl : restart_loop computers grid_size gen m n.toNat 0 ⟨none, none, 0, [], 0⟩ with
  | none =>
    have hnone : hill_climbing_with_random_restart computers grid_size gen n m = none := by
      simp [hill_climbing_with_random_restart, hrl]
    rw [hnone] at h
    exact Option.noConfusion h
  | some st =>
    obtain ⟨hlen, hinv⟩ := restart_loop_inv computers grid_size gen m n.toNat 0
      ⟨none, none, 0, [], 0⟩ st hrl rfl (Or.inl ⟨rfl, rfl, rfl⟩)
    cases hmin : seqMin (st.all_results.map (fun r => r.score)) with
    | none =>
      have hnone : hill_climbing_with_random_restart computers grid_size gen n m = none := by
        simp [hill_climbing_with_random_restart, hrl, hmin]
      rw [hnone] at h
      exact Option.noConfusion h
    | some worst =>
      have heq := hc_rr_unfold computers grid_size gen n m st worst hrl hmin
      obtain rfl := Option.some.inj (heq.symm.trans h)
      rcases hinv with ⟨_, hnil, _⟩ | ⟨b, l1, l2, r, hbs, hall, hr, _, hlt, hle, hnum⟩
      · rw [hnil] at hmin
        simp [seqMin] at hmin
      · exact ⟨b, l1, l2, r, hbs, hall, hr, hlt, hle, hnum, by simpa using hlen⟩

/-- Witness for C8: one restart with an empty client set from start
`[(0,0)]` records exactly one run with score 0, which is the best, found at
restart number 1. -/
theorem restart_best_is_max_witness :
    ∃ b l1 l2 r, (some (0 : Int)) = some b ∧
      ([⟨[((0 : Int), (0 : Int))], 0, 0, 0⟩] : List RunResult) = l1 ++ r :: l2 ∧
      r.score = b ∧ (∀ q ∈ l1, q.score < b) ∧
      (∀ q ∈ ([⟨[((0 : Int), (0 : Int))], 0, 0, 0⟩] : List RunResult), q.score ≤ b) ∧
      (1 : Nat) = l1.length + 1 ∧
      ([⟨[((0 : Int), (0 : Int))], 0, 0, 0⟩] : List RunResult).length = (1 : Int).toNat := by
  have h := restart_best_is_max [] 1 (fun _ => [(0, 0)]) 1 0
    { best_wifi_positions := some [(0, 0)]
      best_score := some 0
      best_restart_num := 1
      all_results := [⟨[(0, 0)], 0, 0, 0⟩]
      worst_score := 0
      unique_solutions := 1
      total_improvements := 0
      improvement_rate := ((0 : Nat) : ℚ) / ((1 : Int) : ℚ) } rfl
  simpa using h

/-- Counterexample to C3 as stated: constructing with a negative client
count does not fail — `generate_random_computers` silently returns the empty
client set (Python `range` of a negative number is empty) — and a subsequent
full `hill_climbing_with_random_restart` invocation on the resulting
instance returns a Restart Result with no error at all. -/
theorem invalid_config_counterexample :
    generate_random_computers (fun _ => 0) 3 (-5) = some [] ∧
    (hill_climbing_with_random_restart [] 3 (fun _ => [((0 : Int), (0 : Int))]) 1 0).isSome
      = true :=
  ⟨rfl, rfl⟩

/-- C3 (amended): `restartCount ≤ 0` does make
`hill_climbing_with_random_restart` raise — but only a `ValueError` from
`min` over the empty per-restart scores list while computing statistics,
after the (empty) restart loop, not as fail-fast validation before it; a
non-positive grid size raises from `randint` during client generation only
when at least one client is requested; and a negative (or zero) client
count is silently accepted, yielding the empty client set with no error. -/
theorem invalid_config_behavior :
    (∀ (computers : List Pos) (grid_size : Int) (gen : Nat → List Pos) (m : Nat) (n : Int),
      n ≤ 0 → hill_climbing_with_random_restart computers grid_size gen n m = none) ∧
    (∀ (s : Nat → Nat) (grid_size num_computers : Int), num_computers ≤ 0 →
      generate_random_computers s grid_size num_computers = some []) ∧
    (∀ (s : Nat → Nat) (grid_size num_computers : Int), grid_size ≤ 0 →
      1 ≤ num_computers → generate_random_computers s grid_size num_computers = none) := by
  refine ⟨?_, ?_, ?_⟩
  · intro computers grid_size gen m n hn
    have h0 : n.toNat = 0 := by omega
    simp [hill_climbing_with_random_restart, h0, restart_loop, seqMin]
  · intro s grid_size num_computers h
    have h0 : num_computers.toNat = 0 := by omega
    simp [generate_random_computers, h0, traverse?]
  · intro s grid_size num_computers hg hn
    have hr : ∀ r, randint 0 (grid_size - 1) r = none := by
      intro r
      unfold randint
      rw [if_pos (by omega)]
    have h1 : 1 ≤ num_computers.toNat := by omega
    cases hnc : num_computers.toNat with
    | zero => omega
    | succ k =>
      unfold generate_random_computers
      rw [hnc, List.range_succ_eq_map]
      simp [traverse?, hr]

/-- Witness for C3 (amended) at concrete invalid configurations. -/
theorem invalid_config_behavior_witness :
    hill_climbing_with_random_restart [((0 : Int), (0 : Int))] 3
        (fun _ => [((0 : Int), (0 : Int))]) 0 5 = none ∧
    generate_random_computers (fun _ => 0) 3 (-2) = some [] ∧
    generate_random_computers (fun _ => 0) 0 1 = none :=
  ⟨invalid_config_behavior.1 [(0, 0)] 3 (fun _ => [(0, 0)]) 5 0 (by decide),
   invalid_config_behavior.2.1 (fun _ => 0) 3 (-2) (by decide),
   invalid_config_behavior.2.2 (fun _ => 0) 0 1 (by decide) (by decide)⟩

end HillClimbing
